import Mathlib

/-
Verification of the glyph-geometry core of the xheight handwriting-font
generator.  The TypeScript source is shallowly embedded: JavaScript numbers
are modelled as rationals (ℚ); transcendental operations (atan2, cos, sin)
are abstracted into an oracle environment, since the claims under study
depend only on the algebraic structure of the computations, not on the
values of the trigonometric functions.
-/

set_option maxHeartbeats 1000000

namespace XHeight

/-- A 2-D point with real-valued coordinates (TypeScript interface Point),
modelled over ℚ. -/
structure Point where
  x : ℚ
  y : ℚ
deriving DecidableEq

/-- One pen stroke: an ordered list of points (TypeScript interface Stroke). -/
structure Stroke where
  points : List Point
deriving DecidableEq

/-- Arithmetic mean of three points, the body of the moving-average push in
smoothStrokes. -/
def avg3 (p0 p1 p2 : Point) : Point :=
  { x := (p0.x + p1.x + p2.x) / 3, y := (p0.y + p1.y + p2.y) / 3 }

/-- Interior pass of the 3-point moving average: the loop
for i = 1 .. points.length - 2 pushing the mean of points i-1, i, i+1,
expressed as a window over consecutive triples. -/
def interiorAvg : List Point → List Point
  | p0 :: p1 :: p2 :: rest => avg3 p0 p1 p2 :: interiorAvg (p1 :: p2 :: rest)
  | _ => []

/-- Per-stroke body of smoothStrokes (src/utils/svgHelpers.ts): a stroke with
fewer than 3 points passes through unchanged; otherwise the first point, the
interior moving averages, and the last point are emitted. -/
def smoothStroke (s : Stroke) : Stroke :=
  if s.points.length < 3 then s
  else
    { points := s.points.headD { x := 0, y := 0 } ::
        (interiorAvg s.points ++ [s.points.getLastD { x := 0, y := 0 }]) }

/-- smoothStrokes maps the per-stroke smoothing over the stroke list. -/
def smoothStrokes (strokes : List Stroke) : List Stroke :=
  strokes.map smoothStroke

/-- Axis-aligned bounding box of a point collection. -/
structure BBox where
  minX : ℚ
  maxX : ℚ
  minY : ℚ
  maxY : ℚ
deriving DecidableEq

/-- Accumulation step of the min/max scan the source performs over every
point of every stroke. -/
def bboxStep (b : BBox) (p : Point) : BBox :=
  { minX := min b.minX p.x, maxX := max b.maxX p.x
    minY := min b.minY p.y, maxY := max b.maxY p.y }

/-- Bounding box of all points across all strokes.  The source initialises
min/max with plus-or-minus Infinity and tests minX === Infinity afterwards;
that sentinel case is the none branch here. -/
def bboxOf (strokes : List Stroke) : Option BBox :=
  match (strokes.map Stroke.points).flatten with
  | [] => none
  | p :: ps => some (ps.foldl bboxStep { minX := p.x, maxX := p.x, minY := p.y, maxY := p.y })

/-! Basic lemmas about smoothing. -/

theorem interiorAvg_length (l : List Point) : (interiorAvg l).length = l.length - 2 := by
  match l with
  | [] => rfl
  | [_] => rfl
  | [_, _] => rfl
  | p0 :: p1 :: p2 :: rest =>
    simp only [interiorAvg, List.length_cons]
    rw [interiorAvg_length (p1 :: p2 :: rest)]
    simp [Nat.succ_sub_succ]

theorem interiorAvg_getD (l : List Point) (k : ℕ) (d : Point) (h : k + 2 < l.length) :
    (interiorAvg l).getD k d = avg3 (l.getD k d) (l.getD (k+1) d) (l.getD (k+2) d) := by
  match l, k with
  | p0 :: p1 :: p2 :: rest, 0 => rfl
  | p0 :: p1 :: p2 :: rest, (k+1) =>
    simp only [interiorAvg, List.getD_cons_succ]
    exact interiorAvg_getD (p1 :: p2 :: rest) k d (by simpa [Nat.succ_lt_succ_iff] using h)

theorem smoothStroke_length (s : Stroke) :
    (smoothStroke s).points.length = s.points.length := by
  unfold smoothStroke
  by_cases h : s.points.length < 3
  · simp [h]
  · simp only [h, if_false, List.length_cons, List.length_append, List.length_singleton,
      List.length_nil, interiorAvg_length]
    omega

theorem smoothStroke_of_short (s : Stroke) (h : s.points.length < 3) : smoothStroke s = s := by
  simp [smoothStroke, h]

theorem smoothStroke_points_of_long (s : Stroke) (h : ¬ s.points.length < 3) :
    (smoothStroke s).points = s.points.headD { x := 0, y := 0 } ::
      (interiorAvg s.points ++ [s.points.getLastD { x := 0, y := 0 }]) := by
  simp [smoothStroke, h]

theorem getD_smoothStrokes (ss : List Stroke) (j : ℕ) :
    (smoothStrokes ss).getD j ⟨[]⟩ = smoothStroke (ss.getD j ⟨[]⟩) := by
  induction ss generalizing j with
  | nil => cases j <;> simp [smoothStrokes, smoothStroke]
  | cons s t ih =>
    cases j with
    | zero => rfl
    | succ k => simpa [smoothStrokes] using ih k

theorem getD_getLastD (l : List Point) (d e : Point) (h : l ≠ []) :
    l.getLastD d = l.getLastD e := by
  induction l with
  | nil => exact absurd rfl h
  | cons p rest ih =>
    cases rest with
    | nil => rfl
    | cons q t => simpa [List.getLastD_cons] using ih (by simp)

theorem smoothStroke_first (s : Stroke) (d : Point) :
    (smoothStroke s).points.getD 0 d = s.points.getD 0 d := by
  by_cases h : s.points.length < 3
  · rw [smoothStroke_of_short s h]
  · rw [smoothStroke_points_of_long s h]
    cases hp : s.points with
    | nil => simp [hp] at h
    | cons p rest => simp [hp]

theorem smoothStroke_last (s : Stroke) (d : Point) :
    (smoothStroke s).points.getLastD d = s.points.getLastD d := by
  by_cases h : s.points.length < 3
  · rw [smoothStroke_of_short s h]
  · rw [smoothStroke_points_of_long s h]
    have hne : s.points ≠ [] := by
      intro hnil
      simp [hnil] at h
    have hcat : s.points.headD { x := 0, y := 0 } ::
        (interiorAvg s.points ++ [s.points.getLastD { x := 0, y := 0 }]) =
        (s.points.headD { x := 0, y := 0 } :: interiorAvg s.points) ++
          [s.points.getLastD { x := 0, y := 0 }] := by
      simp
    rw [hcat, List.getLastD_eq_getLast?, List.getLast?_concat]
    simp only [Option.getD_some]
    exact getD_getLastD s.points _ d hne

theorem smoothStroke_interior (s : Stroke) (d : Point) (i : ℕ) (h1 : 1 ≤ i)
    (h2 : i + 1 < s.points.length) :
    (smoothStroke s).points.getD i d =
      avg3 (s.points.getD (i-1) d) (s.points.getD i d) (s.points.getD (i+1) d) := by
  have h : ¬ s.points.length < 3 := by omega
  rw [smoothStroke_points_of_long s h]
  obtain ⟨k, rfl⟩ : ∃ k, i = k + 1 := ⟨i - 1, by omega⟩
  rw [List.getD_cons_succ]
  have hk : k < (interiorAvg s.points).length := by
    rw [interiorAvg_length]; omega
  rw [List.getD_append _ _ _ _ hk, interiorAvg_getD s.points k d (by omega)]
  simp [Nat.add_sub_cancel]

/-- Claim C5: smoothStrokes is total and pure; a stroke with at least 3 points keeps
its first and last points and replaces every interior point i by the arithmetic
mean of points i-1, i, i+1; a stroke with fewer than 3 points passes through
unchanged. -/
theorem claim_C5_smoothStrokes_moving_average (ss : List Stroke) (j : ℕ) (d : Point) :
    ((ss.getD j ⟨[]⟩).points.length < 3 →
      (smoothStrokes ss).getD j ⟨[]⟩ = ss.getD j ⟨[]⟩) ∧
    (3 ≤ (ss.getD j ⟨[]⟩).points.length →
      ((smoothStrokes ss).getD j ⟨[]⟩).points.getD 0 d = (ss.getD j ⟨[]⟩).points.getD 0 d ∧
      ((smoothStrokes ss).getD j ⟨[]⟩).points.getLastD d = (ss.getD j ⟨[]⟩).points.getLastD d ∧
      ∀ i, 1 ≤ i → i + 1 < (ss.getD j ⟨[]⟩).points.length →
        ((smoothStrokes ss).getD j ⟨[]⟩).points.getD i d =
          avg3 ((ss.getD j ⟨[]⟩).points.getD (i-1) d) ((ss.getD j ⟨[]⟩).points.getD i d)
            ((ss.getD j ⟨[]⟩).points.getD (i+1) d)) := by
  rw [getD_smoothStrokes]
  refine ⟨fun h => smoothStroke_of_short _ h, fun _ => ⟨smoothStroke_first _ d,
    smoothStroke_last _ d, fun i h1 h2 => smoothStroke_interior _ d i h1 h2⟩⟩

/-- Concrete four-point stroke used to witness claim C5. -/
def sampleC5 : List Stroke := [⟨[⟨0,0⟩, ⟨3,3⟩, ⟨6,0⟩, ⟨9,3⟩]⟩]

/-- Witness for claim C5: the second point of the smoothed sample stroke is the
mean of the first three input points. -/
theorem claim_C5_witness :
    3 ≤ (sampleC5.getD 0 ⟨[]⟩).points.length ∧
    ((smoothStrokes sampleC5).getD 0 ⟨[]⟩).points.getD 1 ⟨0,0⟩ =
      avg3 ((sampleC5.getD 0 ⟨[]⟩).points.getD 0 ⟨0,0⟩)
        ((sampleC5.getD 0 ⟨[]⟩).points.getD 1 ⟨0,0⟩)
        ((sampleC5.getD 0 ⟨[]⟩).points.getD 2 ⟨0,0⟩) :=
  ⟨by decide,
    ((claim_C5_smoothStrokes_moving_average sampleC5 0 ⟨0,0⟩).2 (by decide)).2.2 1
      (by decide) (by decide)⟩

/-- Claim C9: smoothStrokes preserves the shape of its input: same number of
strokes, and each output stroke has exactly as many points as the
corresponding input stroke. -/
theorem claim_C9_smoothStrokes_shape (ss : List Stroke) :
    (smoothStrokes ss).length = ss.length ∧
    ∀ j, ((smoothStrokes ss).getD j ⟨[]⟩).points.length = (ss.getD j ⟨[]⟩).points.length := by
  refine ⟨by simp [smoothStrokes], fun j => ?_⟩
  rw [getD_smoothStrokes]
  exact smoothStroke_length _

/-! Embedding of centerStrokes (src/utils/svgHelpers.ts). -/

/-- Characters that receive a lowered vertical center in centerStrokes. -/
def DESCENDERS : List Char := ['g', 'j', 'p', 'q', 'y']

/-- Vertical center target of centerStrokes: canvas middle, or 62 percent of
the height for descender characters (height * 0.62 in the source). -/
def centerTargetY (height : ℚ) (char : Option Char) : ℚ :=
  match char with
  | some ch => if DESCENDERS.contains ch then height * (62/100) else height / 2
  | none => height / 2

/-- centerStrokes translates all strokes so the content bounding-box center
coincides with the horizontal canvas center and the vertical target, except
when the input is empty, has no points, or the required shift is below the
one-unit dead band. -/
def centerStrokes (inputStrokes : List Stroke) (width height : ℚ) (char : Option Char) :
    List Stroke :=
  if inputStrokes.length = 0 then inputStrokes else
  match bboxOf inputStrokes with
  | none => inputStrokes
  | some b =>
    let contentCenterX := b.minX + (b.maxX - b.minX) / 2
    let contentCenterY := b.minY + (b.maxY - b.minY) / 2
    let targetCenterX := width / 2
    let targetCenterY := centerTargetY height char
    let offsetX := targetCenterX - contentCenterX
    let offsetY := targetCenterY - contentCenterY
    if |offsetX| < 1 ∧ |offsetY| < 1 then inputStrokes
    else inputStrokes.map fun s => ⟨s.points.map fun p => ⟨p.x + offsetX, p.y + offsetY⟩⟩

/-! Bounding boxes commute with monotone affine maps of the plane. -/

/-- Affine map of the plane with independent horizontal and vertical scale
and offset. -/
def affinePt (a bx c bY : ℚ) (p : Point) : Point :=
  { x := a * p.x + bx, y := c * p.y + bY }

/-- Image of a bounding box under the corresponding affine map, for
nonnegative scales. -/
def affineBox (a bx c bY : ℚ) (b : BBox) : BBox :=
  { minX := a * b.minX + bx, maxX := a * b.maxX + bx
    minY := c * b.minY + bY, maxY := c * b.maxY + bY }

/-- Pointwise map over every point of every stroke. -/
def mapStrokes (f : Point → Point) (ss : List Stroke) : List Stroke :=
  ss.map fun s => ⟨s.points.map f⟩

theorem min_affine (a e u v : ℚ) (ha : 0 ≤ a) :
    min (a * u + e) (a * v + e) = a * min u v + e := by
  rcases le_total u v with h | h
  · rw [min_eq_left (by nlinarith), min_eq_left h]
  · rw [min_eq_right (by nlinarith), min_eq_right h]

theorem max_affine (a e u v : ℚ) (ha : 0 ≤ a) :
    max (a * u + e) (a * v + e) = a * max u v + e := by
  rcases le_total u v with h | h
  · rw [max_eq_right (by nlinarith), max_eq_right h]
  · rw [max_eq_left (by nlinarith), max_eq_left h]

theorem bboxStep_affine (a bx c bY : ℚ) (ha : 0 ≤ a) (hc : 0 ≤ c) (b : BBox) (p : Point) :
    bboxStep (affineBox a bx c bY b) (affinePt a bx c bY p) =
      affineBox a bx c bY (bboxStep b p) := by
  simp only [bboxStep, affineBox, affinePt]
  rw [min_affine a bx _ _ ha, max_affine a bx _ _ ha, min_affine c bY _ _ hc,
    max_affine c bY _ _ hc]

theorem foldl_bboxStep_affine (a bx c bY : ℚ) (ha : 0 ≤ a) (hc : 0 ≤ c) (ps : List Point) :
    ∀ acc : BBox, (ps.map (affinePt a bx c bY)).foldl bboxStep (affineBox a bx c bY acc) =
      affineBox a bx c bY (ps.foldl bboxStep acc) := by
  induction ps with
  | nil => intro acc; rfl
  | cons p t ih =>
    intro acc
    simp only [List.map_cons, List.foldl_cons, bboxStep_affine a bx c bY ha hc]
    exact ih _

theorem bboxOf_mapStrokes_affine (a bx c bY : ℚ) (ha : 0 ≤ a) (hc : 0 ≤ c)
    (ss : List Stroke) :
    bboxOf (mapStrokes (affinePt a bx c bY) ss) = (bboxOf ss).map (affineBox a bx c bY) := by
  unfold bboxOf mapStrokes
  have hflat : ((ss.map fun s => Stroke.mk (s.points.map (affinePt a bx c bY))).map
      Stroke.points).flatten = ((ss.map Stroke.points).flatten).map (affinePt a bx c bY) := by
    rw [List.map_flatten]
    simp [List.map_map, Function.comp_def]
  rw [hflat]
  cases hl : (ss.map Stroke.points).flatten with
  | nil => rfl
  | cons p ps =>
    simp only [List.map_cons, Option.map_some]
    have hinit : (BBox.mk (affinePt a bx c bY p).x (affinePt a bx c bY p).x
        (affinePt a bx c bY p).y (affinePt a bx c bY p).y) =
        affineBox a bx c bY ⟨p.x, p.x, p.y, p.y⟩ := rfl
    rw [hinit, foldl_bboxStep_affine a bx c bY ha hc ps]
    rfl

/-- Claim C10: centerStrokes passes its input through unchanged for an empty
stroke list, for input with no points (undefined bounding box), and when both
computed offsets are below the one-unit dead band; otherwise it translates
every point by one common offset placing the content bounding-box center on
the target center. -/
theorem claim_C10_centerStrokes_behaviour (ss : List Stroke) (w h : ℚ) (c : Option Char) :
    (ss = [] → centerStrokes ss w h c = ss) ∧
    (bboxOf ss = none → centerStrokes ss w h c = ss) ∧
    (∀ b, bboxOf ss = some b →
      |w / 2 - (b.minX + (b.maxX - b.minX) / 2)| < 1 →
      |centerTargetY h c - (b.minY + (b.maxY - b.minY) / 2)| < 1 →
      centerStrokes ss w h c = ss) ∧
    (∀ b, bboxOf ss = some b →
      ¬(|w / 2 - (b.minX + (b.maxX - b.minX) / 2)| < 1 ∧
        |centerTargetY h c - (b.minY + (b.maxY - b.minY) / 2)| < 1) →
      centerStrokes ss w h c =
        mapStrokes (fun p => ⟨p.x + (w / 2 - (b.minX + (b.maxX - b.minX) / 2)),
          p.y + (centerTargetY h c - (b.minY + (b.maxY - b.minY) / 2))⟩) ss ∧
      ∃ b2, bboxOf (centerStrokes ss w h c) = some b2 ∧
        b2.minX + (b2.maxX - b2.minX) / 2 = w / 2 ∧
        b2.minY + (b2.maxY - b2.minY) / 2 = centerTargetY h c) := by
  refine ⟨?_, ?_, ?_, ?_⟩
  · intro hnil; subst hnil; rfl
  · intro hb
    unfold centerStrokes
    rw [hb]
    by_cases hlen : ss.length = 0 <;> simp [hlen]
  · intro b hb hx hy
    have hlen : ¬ ss.length = 0 := by
      intro h0
      rw [List.length_eq_zero] at h0
      subst h0
      simp [bboxOf] at hb
    unfold centerStrokes
    rw [hb]
    simp only [hlen, if_false]
    rw [if_pos ⟨hx, hy⟩]
  · intro b hb hnot
    have hlen : ¬ ss.length = 0 := by
      intro h0
      rw [List.length_eq_zero] at h0
      subst h0
      simp [bboxOf] at hb
    have hmain : centerStrokes ss w h c =
        mapStrokes (fun p => ⟨p.x + (w / 2 - (b.minX + (b.maxX - b.minX) / 2)),
          p.y + (centerTargetY h c - (b.minY + (b.maxY - b.minY) / 2))⟩) ss := by
      unfold centerStrokes
      rw [hb]
      simp only [hlen, if_false]
      rw [if_neg hnot]
      rfl
    refine ⟨hmain, ?_⟩
    set ox := w / 2 - (b.minX + (b.maxX - b.minX) / 2) with hox
    set oy := centerTargetY h c - (b.minY + (b.maxY - b.minY) / 2) with hoy
    have hfun : (fun p : Point => Point.mk (p.x + ox) (p.y + oy)) = affinePt 1 ox 1 oy := by
      funext p
      simp [affinePt]
    rw [hmain, hfun, bboxOf_mapStrokes_affine 1 ox 1 oy (by norm_num) (by norm_num) ss, hb]
    refine ⟨affineBox 1 ox 1 oy b, rfl, ?_, ?_⟩
    · simp only [affineBox, one_mul, hox]
      ring
    · simp only [affineBox, one_mul, hoy]
      ring

/-- Concrete input used to witness claim C10. -/
def sampleC10 : List Stroke := [⟨[⟨0,0⟩, ⟨10,10⟩]⟩]

/-- Witness for claim C10: centering a two-point stroke on a 100 by 100
canvas translates it and recenters its bounding box on the canvas center. -/
theorem claim_C10_witness :
    bboxOf sampleC10 = some ⟨0, 10, 0, 10⟩ ∧
    ¬(|(100:ℚ) / 2 - ((0:ℚ) + ((10:ℚ) - 0) / 2)| < 1 ∧
      |centerTargetY 100 none - ((0:ℚ) + ((10:ℚ) - 0) / 2)| < 1) ∧
    (centerStrokes sampleC10 100 100 none =
        mapStrokes (fun p => ⟨p.x + ((100:ℚ) / 2 - ((0:ℚ) + ((10:ℚ) - 0) / 2)),
          p.y + (centerTargetY 100 none - ((0:ℚ) + ((10:ℚ) - 0) / 2))⟩) sampleC10 ∧
      ∃ b2, bboxOf (centerStrokes sampleC10 100 100 none) = some b2 ∧
        b2.minX + (b2.maxX - b2.minX) / 2 = (100:ℚ) / 2 ∧
        b2.minY + (b2.maxY - b2.minY) / 2 = centerTargetY 100 none) :=
  ⟨by decide, by norm_num [centerTargetY],
    (claim_C10_centerStrokes_behaviour sampleC10 100 100 none).2.2.2 ⟨0, 10, 0, 10⟩
      (by decide) (by norm_num [centerTargetY])⟩

/-! Embedding of the glyph normalizer (fontService variant in src/types.ts). -/

/-- Character classes for vertical placement. -/
def CAPS_CHARS : List Char := "ABCDEFGHIJKLMNOPQRSTUVWXYZ0123456789!?".toList

/-- Lowercase characters normalized to x-height. -/
def SMALL_CHARS : List Char := "acemnorsuvwxz".toList

/-- Lowercase characters with ascenders. -/
def TALL_CHARS : List Char := "bdfhiklt".toList

/-- Lowercase characters with descenders. -/
def DESC_CHARS : List Char := "gjpqy".toList

/-- Em square height in font units. -/
def EM_HEIGHT : ℚ := 1000

/-- Baseline position measured from the top of the 1000-unit SVG space. -/
def BASELINE : ℚ := 800

/-- Target height of capitals, digits and bang or question marks. -/
def CAP_HEIGHT : ℚ := 750

/-- Target height of x-height lowercase characters. -/
def X_HEIGHT : ℚ := 550

/-- Target height of ascender characters. -/
def ASCENDER_HEIGHT : ℚ := 800

/-- Fixed left side bearing in font units. -/
def LSB : ℚ := 50

/-- Fixed right side bearing in font units. -/
def RSB : ℚ := 50

/-- Result record of the normalizer. -/
structure NormalizedGlyph where
  strokes : List Stroke
  advanceWidth : ℚ
  height : ℚ
deriving DecidableEq

/-- Branch block of normalizeStrokes choosing scale and the target Y of the
glyph top in 0..1000 space, by character category.  The comma branch assigns
targetY twice in the source; only the final assignment (BASELINE) survives. -/
def scaleTargetFor (char : Char) (rawH avgScale : ℚ) : ℚ × ℚ :=
  if CAPS_CHARS.contains char then
    let scale := CAP_HEIGHT / rawH
    (scale, BASELINE - rawH * scale)
  else if SMALL_CHARS.contains char then
    let scale := X_HEIGHT / rawH
    (scale, BASELINE - rawH * scale)
  else if TALL_CHARS.contains char then
    let scale := ASCENDER_HEIGHT / rawH
    (scale, BASELINE - rawH * scale)
  else if DESC_CHARS.contains char then
    (CAP_HEIGHT / rawH, BASELINE - X_HEIGHT)
  else if char = ',' then
    (avgScale, BASELINE)
  else if char = '.' then
    (avgScale, BASELINE - rawH * avgScale)
  else
    (avgScale, BASELINE - rawH * avgScale)

/-- normalizeStrokes: smooths, measures the bounding box, picks the category
scale and vertical anchor, and maps every point into the 1000-unit em square;
the advance width is the scaled width plus both side bearings. -/
def normalizeStrokes (strokes : List Stroke) (char : Char) (avgScale : ℚ) : NormalizedGlyph :=
  if strokes.length = 0 then { strokes := [], advanceWidth := 0, height := EM_HEIGHT }
  else
    let smoothed := smoothStrokes strokes
    match bboxOf smoothed with
    | none => { strokes := smoothed, advanceWidth := 0, height := EM_HEIGHT }
    | some b =>
      let rawH := max (b.maxY - b.minY) 1
      let rawW := b.maxX - b.minX
      let st := scaleTargetFor char rawH avgScale
      let scale := st.1
      let targetY := st.2
      let offsetY := targetY - b.minY * scale
      let offsetX := LSB - b.minX * scale
      let newStrokes := smoothed.map fun s =>
        ⟨s.points.map fun p => ⟨p.x * scale + offsetX, p.y * scale + offsetY⟩⟩
      { strokes := newStrokes, advanceWidth := rawW * scale + LSB + RSB, height := EM_HEIGHT }

theorem normalizeStrokes_eq (strokes : List Stroke) (char : Char) (avg : ℚ) (b : BBox)
    (hlen : ¬ strokes.length = 0) (hb : bboxOf (smoothStrokes strokes) = some b) :
    normalizeStrokes strokes char avg =
      { strokes := mapStrokes
          (affinePt (scaleTargetFor char (max (b.maxY - b.minY) 1) avg).1
            (LSB - b.minX * (scaleTargetFor char (max (b.maxY - b.minY) 1) avg).1)
            (scaleTargetFor char (max (b.maxY - b.minY) 1) avg).1
            ((scaleTargetFor char (max (b.maxY - b.minY) 1) avg).2 -
              b.minY * (scaleTargetFor char (max (b.maxY - b.minY) 1) avg).1))
          (smoothStrokes strokes),
        advanceWidth :=
          (b.maxX - b.minX) * (scaleTargetFor char (max (b.maxY - b.minY) 1) avg).1 + LSB + RSB,
        height := EM_HEIGHT } := by
  have hfun : ∀ sc ox oy : ℚ,
      (fun s : Stroke => Stroke.mk (s.points.map fun p => Point.mk (p.x * sc + ox) (p.y * sc + oy)))
        = fun s : Stroke => Stroke.mk (s.points.map (affinePt sc ox sc oy)) := by
    intro sc ox oy
    funext s
    simp only [Stroke.mk.injEq]
    refine List.map_congr_left fun p _ => ?_
    simp [affinePt, mul_comm]
  simp only [normalizeStrokes, hlen, if_false, hb, mapStrokes]
  rw [hfun]

theorem scaleTargetFor_nonneg (char : Char) (rawH avg : ℚ) (h1 : 1 ≤ rawH) (havg : 0 ≤ avg) :
    0 ≤ (scaleTargetFor char rawH avg).1 := by
  have h0 : (0:ℚ) ≤ rawH := by linarith
  unfold scaleTargetFor
  split_ifs <;>
    first
      | exact div_nonneg (by norm_num [CAP_HEIGHT, X_HEIGHT, ASCENDER_HEIGHT]) h0
      | exact havg

theorem scaleTargetFor_caps (char : Char) (rawH avg : ℚ)
    (h : CAPS_CHARS.contains char = true) :
    scaleTargetFor char rawH avg = (CAP_HEIGHT / rawH, BASELINE - rawH * (CAP_HEIGHT / rawH)) := by
  unfold scaleTargetFor
  rw [if_pos h]

/-- Claim C1 (amended): for every caps-category character whose smoothed
strokes have a bounding box of height at least 1 canvas unit, the normalized
strokes have bounding-box bottom exactly at the baseline (800) and height
exactly CAP_HEIGHT (750).  The height floor rawH = max(h, 1) in the source
makes the original positive-height phrasing fail below height 1. -/
theorem claim_C1_caps_bottom_on_baseline (strokes : List Stroke) (char : Char) (avg : ℚ)
    (b : BBox) (hchar : CAPS_CHARS.contains char = true)
    (hb : bboxOf (smoothStrokes strokes) = some b)
    (hH : 1 ≤ b.maxY - b.minY) :
    ∃ b2, bboxOf (normalizeStrokes strokes char avg).strokes = some b2 ∧
      b2.maxY = BASELINE ∧ b2.maxY - b2.minY = CAP_HEIGHT := by
  have hne : ¬ strokes.length = 0 := by
    intro h0
    rw [List.length_eq_zero] at h0
    subst h0
    simp [smoothStrokes, bboxOf] at hb
  have hraw : max (b.maxY - b.minY) 1 = b.maxY - b.minY := max_eq_left hH
  have hpos : (0:ℚ) < b.maxY - b.minY := by linarith
  have hscnn : 0 ≤ (scaleTargetFor char (max (b.maxY - b.minY) 1) avg).1 := by
    rw [scaleTargetFor_caps char _ avg hchar]
    exact div_nonneg (by norm_num [CAP_HEIGHT]) (by rw [hraw]; linarith)
  rw [normalizeStrokes_eq strokes char avg b hne hb]
  simp only
  rw [bboxOf_mapStrokes_affine _ _ _ _ hscnn hscnn, hb]
  refine ⟨_, rfl, ?_, ?_⟩
  · simp only [affineBox, scaleTargetFor_caps char _ avg hchar, hraw]
    field_simp
    ring
  · simp only [affineBox, scaleTargetFor_caps char _ avg hchar, hraw]
    field_simp
    ring

/-- Concrete caps input used to witness the amended claim C1. -/
def sampleC1 : List Stroke := [⟨[⟨0,0⟩, ⟨0,750⟩]⟩]

/-- Witness for claim C1 at a vertical stroke of drawn height 750. -/
theorem claim_C1_witness :
    CAPS_CHARS.contains 'A' = true ∧
    bboxOf (smoothStrokes sampleC1) = some ⟨0, 0, 0, 750⟩ ∧
    (1:ℚ) ≤ (750:ℚ) - 0 ∧
    ∃ b2, bboxOf (normalizeStrokes sampleC1 'A' 0).strokes = some b2 ∧
      b2.maxY = BASELINE ∧ b2.maxY - b2.minY = CAP_HEIGHT :=
  ⟨by decide, by decide, by norm_num,
    claim_C1_caps_bottom_on_baseline sampleC1 'A' 0 ⟨0, 0, 0, 750⟩ (by decide) (by decide)
      (by norm_num)⟩

/-- Input whose bounding box has positive height one half, below the floor. -/
def badCapsInput : List Stroke := [⟨[⟨0, 0⟩, ⟨0, 1/2⟩]⟩]

/-- Counterexample to claim C1 as stated: a caps character with a
non-degenerate bounding box of height one half normalizes to bottom 425 and
height 375, not baseline 800 and CAP_HEIGHT 750. -/
theorem claim_C1_counterexample :
    CAPS_CHARS.contains 'A' = true ∧
    bboxOf (smoothStrokes badCapsInput) = some ⟨0, 0, 0, 1/2⟩ ∧
    (0:ℚ) < 1/2 - 0 ∧
    bboxOf (normalizeStrokes badCapsInput 'A' 0).strokes = some ⟨50, 50, 50, 425⟩ ∧
    ¬((425:ℚ) = BASELINE) ∧ ¬((425:ℚ) - 50 = CAP_HEIGHT) := by
  have hsm : smoothStrokes badCapsInput = badCapsInput := by
    norm_num [smoothStrokes, smoothStroke, badCapsInput]
  have hb2 : bboxOf (smoothStrokes badCapsInput) = some ⟨0, 0, 0, 1/2⟩ := by
    rw [hsm]
    norm_num [badCapsInput, bboxOf, bboxStep, min_def, max_def]
  have hnorm := normalizeStrokes_eq badCapsInput 'A' 0 ⟨0, 0, 0, 1/2⟩ (by decide) hb2
  rw [scaleTargetFor_caps 'A' (max ((1:ℚ)/2 - 0) 1) 0 (by decide)] at hnorm
  have hmax : max ((1:ℚ)/2 - 0) 1 = 1 := by
    norm_num [max_def]
  rw [hmax] at hnorm
  norm_num [CAP_HEIGHT, BASELINE, LSB, RSB, EM_HEIGHT] at hnorm
  have hstrokes : (normalizeStrokes badCapsInput 'A' 0).strokes =
      [⟨[⟨50, 50⟩, ⟨50, 425⟩]⟩] := by
    rw [hnorm, hsm]
    norm_num [mapStrokes, affinePt, badCapsInput]
  refine ⟨by decide, hb2, by norm_num, ?_, by norm_num [BASELINE], by norm_num [CAP_HEIGHT]⟩
  rw [hstrokes]
  decide

/-! Embedding of the outline builder getStrokeOutlinePoints (src/types.ts).
Transcendental functions are abstracted into an oracle environment; the
claims below depend only on the structure of the computation. -/

/-- Oracle for the transcendental operations the outline builder uses. -/
structure TrigEnv where
  pi : ℚ
  cos : ℚ → ℚ
  sin : ℚ → ℚ
  atan2 : ℚ → ℚ → ℚ

/-- Property of a faithful trigonometric oracle: cosine and sine values lie
on the unit circle. -/
def TrigEnv.onCircle (env : TrigEnv) : Prop :=
  ∀ θ : ℚ, env.cos θ ^ 2 + env.sin θ ^ 2 = 1

/-- A ring is the closed outline polygon of one stroke, as a list of
coordinate pairs. -/
abbrev Ring := List (ℚ × ℚ)

/-- A polygon is a ring list (outer ring plus holes), matching the
polygon-clipping input format. -/
abbrev Polygon := List Ring

/-- A multi-polygon, the union result format. -/
abbrev MultiPolygon := List Polygon

/-- getAngle: atan2 of the segment vector. -/
def getAngle (env : TrigEnv) (p1 p2 : Point) : ℚ :=
  env.atan2 (p2.y - p1.y) (p2.x - p1.x)

/-- Coordinate transform of the outline builder: scale, perpendicular
offset, flip Y into font coordinates around the ascender, and x-shear by
the slant. -/
def transformPt (scale ascender slant dx dy : ℚ) (pt : Point) (offX offY : ℚ) : ℚ × ℚ :=
  let x_scaled := pt.x * scale
  let y_scaled := pt.y * scale
  let x_local := x_scaled + offX
  let y_local := y_scaled - offY
  let y_otf := ascender - y_local + dy
  let x_final := x_local + y_otf * slant + dx
  (x_final, y_otf)

/-- Squared distance between two points; Math.hypot(dx, dy) < 2 holds
exactly when this value is below 4. -/
def distSq (p q : Point) : ℚ :=
  (p.x - q.x) ^ 2 + (p.y - q.y) ^ 2

/-- Twelve-point circle approximation produced for dot strokes. -/
def dotRing (env : TrigEnv) (scale ascender thickness slant dx dy : ℚ) (p : Point) : Ring :=
  let r := thickness * scale * (6/10)
  (List.range 12).map fun (i : ℕ) =>
    let theta := ((i : ℚ) / 12) * env.pi * 2
    let ox := r * env.cos theta
    let oy := r * env.sin theta
    transformPt scale ascender slant dx dy p ox (-oy)

/-- Arc fan of 7 interior points (loop i = 1 .. 7 of 8 steps) swept between
two angles around a center, used for the round end caps. -/
def getArc (env : TrigEnv) (scale ascender slant dx dy halfWidth : ℚ) (center : Point)
    (startAng endAng : ℚ) : List (ℚ × ℚ) :=
  (List.range 7).map fun (j : ℕ) =>
    let t := ((j : ℚ) + 1) / 8
    let theta := startAng + t * (endAng - startAng)
    let rawX := halfWidth * env.cos theta
    let rawY := halfWidth * env.sin theta
    transformPt scale ascender slant dx dy center rawX (-rawY)

/-- Left and right offset polylines of the stroke body: per segment the
left normal is angle - pi/2 and each vertex is pushed on both sides; at the
final segment the end point is pushed as well. -/
def buildSides (env : TrigEnv) (scale ascender slant dx dy halfWidth : ℚ) :
    List Point → List (ℚ × ℚ) × List (ℚ × ℚ)
  | p1 :: p2 :: rest =>
    let angle := getAngle env p1 p2
    let leftAngle := angle - env.pi / 2
    let offX := halfWidth * env.cos leftAngle
    let offY := halfWidth * env.sin leftAngle
    match rest with
    | [] =>
      ([transformPt scale ascender slant dx dy p1 offX (-offY),
        transformPt scale ascender slant dx dy p2 offX (-offY)],
       [transformPt scale ascender slant dx dy p1 (-offX) offY,
        transformPt scale ascender slant dx dy p2 (-offX) offY])
    | q :: qs =>
      let lr := buildSides env scale ascender slant dx dy halfWidth (p2 :: q :: qs)
      (transformPt scale ascender slant dx dy p1 offX (-offY) :: lr.1,
       transformPt scale ascender slant dx dy p1 (-offX) offY :: lr.2)
  | _ => ([], [])

/-- Ring assembly for a non-dot stroke: left side forward, end cap, right
side backward, start cap. -/
def strokeRing (env : TrigEnv) (scale ascender thickness slant dx dy : ℚ)
    (points : List Point) : Ring :=
  let d0 : Point := { x := 0, y := 0 }
  let halfWidth := thickness * scale / 2
  let sides := buildSides env scale ascender slant dx dy halfWidth points
  let startAngle := getAngle env (points.getD 0 d0) (points.getD 1 d0)
  let lastIdx := points.length - 1
  let endAngle := getAngle env (points.getD (lastIdx - 1) d0) (points.getD lastIdx d0)
  let endCap := getArc env scale ascender slant dx dy halfWidth (points.getD lastIdx d0)
    (endAngle - env.pi / 2) (endAngle + env.pi / 2)
  let startCap := getArc env scale ascender slant dx dy halfWidth (points.getD 0 d0)
    (startAngle + env.pi / 2) (startAngle + env.pi * (3/2))
  sides.1 ++ endCap ++ sides.2.reverse ++ startCap

/-- getStrokeOutlinePoints: empty strokes give an empty list; a single point,
or two points with distance below 2, give the 12-point dot ring; otherwise
the offset ring with round caps. -/
def getStrokeOutlinePoints (env : TrigEnv) (stroke : Stroke)
    (scale ascender thickness slant dx dy : ℚ) : Ring :=
  let points := stroke.points
  let d0 : Point := { x := 0, y := 0 }
  if points.length = 0 then []
  else if points.length = 1 ∨
      (points.length = 2 ∧ distSq (points.getD 0 d0) (points.getD 1 d0) < 4) then
    dotRing env scale ascender thickness slant dx dy (points.getD 0 d0)
  else
    strokeRing env scale ascender thickness slant dx dy points

/-- Per-glyph polygon collection of generateFont in src/types.ts: one
one-ring polygon per stroke whose outline has more than 2 points. -/
def polygonsFor (env : TrigEnv) (thickness slant : ℚ) (normStrokes : List Stroke) :
    List Polygon :=
  ((normStrokes.map fun s => getStrokeOutlinePoints env s 1 800 thickness slant 0 0).filter
    fun ring => 2 < ring.length).map fun ring => [ring]

theorem dotRing_length (env : TrigEnv) (scale ascender thickness slant dx dy : ℚ) (p : Point) :
    (dotRing env scale ascender thickness slant dx dy p).length = 12 := by
  unfold dotRing
  rw [List.length_map, List.length_range]

theorem getArc_length (env : TrigEnv) (scale ascender slant dx dy halfWidth : ℚ)
    (center : Point) (a1 a2 : ℚ) :
    (getArc env scale ascender slant dx dy halfWidth center a1 a2).length = 7 := by
  unfold getArc
  rw [List.length_map, List.length_range]

theorem buildSides_length (env : TrigEnv) (scale ascender slant dx dy halfWidth : ℚ)
    (pts : List Point) (h : 2 ≤ pts.length) :
    (buildSides env scale ascender slant dx dy halfWidth pts).1.length = pts.length ∧
    (buildSides env scale ascender slant dx dy halfWidth pts).2.length = pts.length := by
  match pts with
  | p1 :: p2 :: rest =>
    match rest with
    | [] => simp [buildSides]
    | q :: qs =>
      have ih := buildSides_length env scale ascender slant dx dy halfWidth (p2 :: q :: qs)
        (by simp)
      simp only [buildSides, List.length_cons]
      exact ⟨by rw [ih.1]; simp, by rw [ih.2]; simp⟩

theorem strokeRing_length (env : TrigEnv) (scale ascender thickness slant dx dy : ℚ)
    (pts : List Point) (h : 2 ≤ pts.length) :
    (strokeRing env scale ascender thickness slant dx dy pts).length = 2 * pts.length + 14 := by
  have hb := buildSides_length env scale ascender slant dx dy (thickness * scale / 2) pts h
  simp only [strokeRing, List.length_append, List.length_reverse, hb.1, hb.2, getArc_length]
  ring

/-- Claim C7: the dot case (one point, or two points closer than the
epsilon) yields the fixed 12-point circle approximation; every outline of a
nonempty stroke has at least 3 points; and every ring of the polygon list
the caller feeds to union has at least 3 points. -/
theorem claim_C7_rings_never_degenerate (env : TrigEnv)
    (stroke : Stroke) (scale ascender thickness slant dx dy : ℚ) :
    (stroke.points.length = 1 ∨
        (stroke.points.length = 2 ∧
          distSq (stroke.points.getD 0 ⟨0,0⟩) (stroke.points.getD 1 ⟨0,0⟩) < 4) →
      (getStrokeOutlinePoints env stroke scale ascender thickness slant dx dy).length = 12) ∧
    (1 ≤ stroke.points.length →
      3 ≤ (getStrokeOutlinePoints env stroke scale ascender thickness slant dx dy).length) ∧
    (∀ thickness2 slant2 : ℚ, ∀ normStrokes : List Stroke,
      ∀ poly ∈ polygonsFor env thickness2 slant2 normStrokes, ∀ ring ∈ poly, 3 ≤ ring.length) := by
  refine ⟨?_, ?_, ?_⟩
  · intro hdot
    have hne : ¬ stroke.points.length = 0 := by
      rcases hdot with h1 | ⟨h2, _⟩ <;> omega
    simp only [getStrokeOutlinePoints, hne, if_false, hdot, if_true, dotRing_length]
  · intro hge
    have hne : ¬ stroke.points.length = 0 := by omega
    by_cases hdot : stroke.points.length = 1 ∨
        (stroke.points.length = 2 ∧
          distSq (stroke.points.getD 0 ⟨0,0⟩) (stroke.points.getD 1 ⟨0,0⟩) < 4)
    · simp only [getStrokeOutlinePoints, hne, if_false, hdot, if_true, dotRing_length]
      omega
    · simp only [getStrokeOutlinePoints, hne, if_false, hdot, if_false]
      have h2 : 2 ≤ stroke.points.length := by
        rcases Nat.lt_or_ge stroke.points.length 2 with hlt | hge2
        · interval_cases hsp : stroke.points.length
          all_goals simp_all
        · exact hge2
      rw [strokeRing_length env scale ascender thickness slant dx dy stroke.points h2]
      omega
  · intro th2 sl2 ns poly hpoly ring hring
    simp only [polygonsFor, List.mem_map, List.mem_filter] at hpoly
    obtain ⟨r, ⟨hrmem, hrlen⟩, rfl⟩ := hpoly
    simp only [List.mem_singleton] at hring
    subst hring
    simp only [decide_eq_true_eq] at hrlen
    omega

/-- Fixed concrete oracle used by witnesses; it satisfies the unit-circle
property. -/
def trivTrig : TrigEnv :=
  { pi := 0, cos := fun _ => 1, sin := fun _ => 0, atan2 := fun _ _ => 0 }

/-- Witness for claim C7: a one-point stroke gives exactly 12 ring points,
hence at least 3. -/
theorem claim_C7_witness :
    ([⟨0,0⟩] : List Point).length = 1 ∧
    (getStrokeOutlinePoints trivTrig ⟨[⟨0,0⟩]⟩ 1 800 50 0 0 0).length = 12 ∧
    3 ≤ (getStrokeOutlinePoints trivTrig ⟨[⟨0,0⟩]⟩ 1 800 50 0 0 0).length :=
  ⟨rfl,
    (claim_C7_rings_never_degenerate trivTrig ⟨[⟨0,0⟩]⟩ 1 800 50 0 0 0).1 (Or.inl rfl),
    (claim_C7_rings_never_degenerate trivTrig ⟨[⟨0,0⟩]⟩ 1 800 50 0 0 0).2.1 (by decide)⟩

/-! Embedding of the font assembler.  Two observed variants are embedded:
generateFont from src/types.ts (normalizer plus polygon-clipping union) and
generateFont from src/unnamed/part_001 (normalizer plus per-stroke outlines,
with an explicit space glyph).  Binary serialisation via opentype.js is an
external collaborator; the embedding stops at the glyph list. -/

/-- Supported character set (src/types.ts). -/
def CHAR_SET : List Char :=
  "ABCDEFGHIJKLMNOPQRSTUVWXYZ".toList ++ "abcdefghijklmnopqrstuvwxyz".toList ++
    "0123456789".toList ++ ".!?,".toList

/-- Per-character drawing record. -/
structure CharData where
  char : Char
  strokes : List Stroke
  canvasWidth : ℚ
  canvasHeight : ℚ
deriving DecidableEq

/-- The font map, an insertion-ordered record from character to drawing
data (Object.keys order is insertion order). -/
abbrev FontMap := List (Char × CharData)

/-- Target height used by calculateAvgScale for one sampled character. -/
def avgTargetFor (char : Char) : ℚ :=
  if CAPS_CHARS.contains char then CAP_HEIGHT
  else if SMALL_CHARS.contains char then X_HEIGHT
  else if TALL_CHARS.contains char then ASCENDER_HEIGHT
  else if DESC_CHARS.contains char then CAP_HEIGHT
  else 700

/-- Accumulation step of calculateAvgScale: skip absent or empty or
pointless records, otherwise add target over floored drawn height and
count the sample. -/
def avgScaleStep (fm : FontMap) (acc : ℚ × ℕ) (char : Char) : ℚ × ℕ :=
  match fm.lookup char with
  | none => acc
  | some data =>
    if data.strokes.length = 0 then acc
    else
      match bboxOf data.strokes with
      | none => acc
      | some b =>
        let h := max (b.maxY - b.minY) 1
        (acc.1 + avgTargetFor char / h, acc.2 + 1)

/-- calculateAvgScale: average ideal scale over all drawn letters of the
four sampled categories; fallback is the 1000 over 300 canvas-to-em ratio. -/
def calculateAvgScale (fm : FontMap) : ℚ :=
  let sampleChars := (CAPS_CHARS ++ SMALL_CHARS ++ TALL_CHARS ++ DESC_CHARS).filter
    fun c => (fm.lookup c).isSome
  let sc := sampleChars.foldl (avgScaleStep fm) (0, 0)
  if 0 < sc.2 then sc.1 / (sc.2 : ℚ) else EM_HEIGHT / 300

/-- One glyph record handed to the binary encoder: name, code point,
advance width, and outline contours. -/
structure Glyph where
  name : String
  unicode : ℕ
  advanceWidth : ℚ
  path : List Ring
deriving DecidableEq

/-- Geometry environment: the trigonometric oracle plus the external
polygon-clipping union, which can throw (Except error). -/
structure GeoEnv where
  trig : TrigEnv
  union : List Polygon → Except String MultiPolygon

/-- Fixed .notdef placeholder box of the src/types.ts variant. -/
def notdefGlyph : Glyph :=
  { name := ".notdef", unicode := 0, advanceWidth := 500,
    path := [[(100, 0), (100, 700), (400, 700), (400, 0)]] }

/-- Outline assembly block for one glyph: union all one-ring stroke
polygons and keep the nonempty contours; no polygons give an empty path.
A union failure propagates (the source has no try/catch here). -/
def glyphPathOf (env : GeoEnv) (thickness slant : ℚ) (normStrokes : List Stroke) :
    Except String (List Ring) :=
  let polygons := polygonsFor env.trig thickness slant normStrokes
  if 0 < polygons.length then
    (env.union polygons).map fun unioned =>
      (unioned.flatten).filter fun ring => ring.length != 0
  else Except.ok []

/-- Character glyph loop of generateFont (src/types.ts): characters with an
empty stroke list are skipped; otherwise the normalized strokes are
outlined, unioned, and emitted with advance width = normalizer advance
plus letterSpacing. -/
def charGlyphs (env : GeoEnv) (avgScale thickness slant letterSpacing : ℚ) :
    FontMap → Except String (List Glyph)
  | [] => Except.ok []
  | (char, data) :: rest =>
    if data.strokes.length = 0 then charGlyphs env avgScale thickness slant letterSpacing rest
    else
      let normalized := normalizeStrokes data.strokes char avgScale
      (glyphPathOf env thickness slant normalized.strokes).bind fun path =>
        (charGlyphs env avgScale thickness slant letterSpacing rest).bind fun glyphs =>
          Except.ok
            ({ name := char.toString
               unicode := char.toNat
               advanceWidth := normalized.advanceWidth + letterSpacing
               path := path } :: glyphs)

/-- generateFont (src/types.ts): .notdef followed by the drawn character
glyphs; only the glyph list is modelled, serialization being external. -/
def generateFont (env : GeoEnv) (fontMap : FontMap) (letterSpacing thickness slant : ℚ) :
    Except String (List Glyph) :=
  let avgScale := calculateAvgScale fontMap
  (charGlyphs env avgScale thickness slant letterSpacing fontMap).map
    fun glyphs => notdefGlyph :: glyphs

/-- generateFontFamilyZip glyph cores: Regular (thickness 50, slant 0),
Bold (90, 0), Italic (50, 0.25) over the same font map. -/
def generateFontFamily (env : GeoEnv) (fontMap : FontMap) (letterSpacing : ℚ) :
    Except String (List Glyph) × Except String (List Glyph) × Except String (List Glyph) :=
  (generateFont env fontMap letterSpacing 50 0,
   generateFont env fontMap letterSpacing 90 0,
   generateFont env fontMap letterSpacing 50 (1/4))

/-! The src/unnamed/part_001 variant. -/

/-- Fixed .notdef placeholder box of the part_001 variant. -/
def notdefGlyphV1 : Glyph :=
  { name := ".notdef", unicode := 0, advanceWidth := 600,
    path := [[(200, 0), (200, 700), (400, 700), (400, 0)]] }

/-- Space glyph of the part_001 variant: empty outline, advance width 400
plus ten times the letter spacing. -/
def spaceGlyphV1 (letterSpacing : ℚ) : Glyph :=
  { name := "space", unicode := 32, advanceWidth := 400 + letterSpacing * 10, path := [] }

/-- Side polylines of the part_001 outline builder: offsets use sin for x
and cos for y of the raw segment angle. -/
def buildSidesV1 (env : TrigEnv) (scale ascender slant dx dy halfWidth : ℚ) :
    List Point → List (ℚ × ℚ) × List (ℚ × ℚ)
  | p1 :: p2 :: rest =>
    let angle := getAngle env p1 p2
    let offX := halfWidth * env.sin angle
    let offY := halfWidth * env.cos angle
    match rest with
    | [] =>
      ([transformPt scale ascender slant dx dy p1 offX offY,
        transformPt scale ascender slant dx dy p2 offX offY],
       [transformPt scale ascender slant dx dy p1 (-offX) (-offY),
        transformPt scale ascender slant dx dy p2 (-offX) (-offY)])
    | q :: qs =>
      let lr := buildSidesV1 env scale ascender slant dx dy halfWidth (p2 :: q :: qs)
      (transformPt scale ascender slant dx dy p1 offX offY :: lr.1,
       transformPt scale ascender slant dx dy p1 (-offX) (-offY) :: lr.2)
  | _ => ([], [])

/-- createOutlineFromStroke of part_001: diamond for dots, otherwise one
ring of left side forward and right side backward, no caps. -/
def createOutlineFromStrokeV1 (env : TrigEnv) (stroke : Stroke)
    (scale ascender thickness slant dx dy : ℚ) : List Ring :=
  let points := stroke.points
  let d0 : Point := { x := 0, y := 0 }
  if points.length = 0 then []
  else if points.length = 1 ∨
      (points.length = 2 ∧ distSq (points.getD 0 d0) (points.getD 1 d0) < 4) then
    let p := points.getD 0 d0
    let r := thickness * scale * (8/10)
    let c := transformPt scale ascender slant dx dy p 0 0
    [[(c.1, c.2 - r), (c.1 + r, c.2), (c.1, c.2 + r), (c.1 - r, c.2)]]
  else
    let halfWidth := thickness * scale / 2
    let sides := buildSidesV1 env scale ascender slant dx dy halfWidth points
    [sides.1 ++ sides.2.reverse]

/-- Math.round on rationals: round half away from zero upward, as the
floor of q plus one half. -/
def roundRat (q : ℚ) : ℚ := (round q : ℤ)

/-- Character glyph loop of the part_001 generateFont: iterate CHAR_SET and
emit a glyph for every character with drawn strokes; advance width is the
rounded normalizer advance plus ten times the letter spacing. -/
def charGlyphsV1 (env : TrigEnv) (fontMap : FontMap)
    (avgScale letterSpacing thickness slant : ℚ) : List Glyph :=
  CHAR_SET.filterMap fun char =>
    match fontMap.lookup char with
    | none => none
    | some data =>
      if data.strokes.length = 0 then none
      else
        let n := normalizeStrokes data.strokes char avgScale
        let path := (n.strokes.map fun s =>
          createOutlineFromStrokeV1 env s 1 800 thickness slant 0 0).flatten
        some { name := char.toString
               unicode := char.toNat
               advanceWidth := roundRat (n.advanceWidth + letterSpacing * 10)
               path := path }

/-- generateFont of part_001: .notdef, then space, then the character
glyphs. -/
def generateFontV1 (env : TrigEnv) (fontMap : FontMap) (letterSpacing thickness slant : ℚ) :
    List Glyph :=
  let avgScale := calculateAvgScale fontMap
  notdefGlyphV1 :: spaceGlyphV1 letterSpacing ::
    charGlyphsV1 env fontMap avgScale letterSpacing thickness slant

/-! Characterization of the glyph lists. -/

/-- Environment whose union always succeeds and passes the polygons
through unchanged. -/
def envTriv : GeoEnv := { trig := trivTrig, union := fun ps => Except.ok ps }

/-- Environment whose union always throws, modelling a pathological
polygon set the clipper cannot resolve. -/
def envFail : GeoEnv := { trig := trivTrig, union := fun _ => Except.error "union failed" }

theorem charGlyphs_ok_spec (env : GeoEnv) (avg th sl ls : ℚ) :
    ∀ (fm : FontMap) (gs : List Glyph), charGlyphs env avg th sl ls fm = Except.ok gs →
      gs.map (fun g => (g.name, g.unicode, g.advanceWidth)) =
        (fm.filter fun e => e.2.strokes.length != 0).map
          fun e => (e.1.toString, e.1.toNat,
            (normalizeStrokes e.2.strokes e.1 avg).advanceWidth + ls) := by
  intro fm
  induction fm with
  | nil =>
    intro gs h
    simp only [charGlyphs, Except.ok.injEq] at h
    subst h
    rfl
  | cons e rest ih =>
    obtain ⟨char, data⟩ := e
    intro gs h
    by_cases hempty : data.strokes.length = 0
    · have hstep : charGlyphs env avg th sl ls ((char, data) :: rest) =
          charGlyphs env avg th sl ls rest := by
        simp [charGlyphs, hempty]
      rw [hstep] at h
      rw [ih gs h]
      simp [List.filter_cons, hempty]
    · simp only [charGlyphs, hempty, if_false] at h
      cases hp : glyphPathOf env th sl (normalizeStrokes data.strokes char avg).strokes with
      | error err =>
        rw [hp] at h
        simp [Except.bind] at h
      | ok path =>
        rw [hp] at h
        cases hr : charGlyphs env avg th sl ls rest with
        | error err =>
          rw [hr] at h
          simp [Except.bind] at h
        | ok glyphs =>
          rw [hr] at h
          simp only [Except.bind, Except.ok.injEq] at h
          subst h
          simp only [List.map_cons, ih glyphs hr, List.filter_cons, hempty]
          simp [bne_iff_ne, hempty]

theorem generateFont_ok_spec (env : GeoEnv) (fm : FontMap) (ls th sl : ℚ) (gs : List Glyph)
    (h : generateFont env fm ls th sl = Except.ok gs) :
    gs.map (fun g => (g.name, g.unicode, g.advanceWidth)) =
      (".notdef", 0, (500:ℚ)) :: (fm.filter fun e => e.2.strokes.length != 0).map
        (fun e => (e.1.toString, e.1.toNat,
          (normalizeStrokes e.2.strokes e.1 (calculateAvgScale fm)).advanceWidth + ls)) := by
  simp only [generateFont] at h
  cases hc : charGlyphs env (calculateAvgScale fm) th sl ls fm with
  | error err =>
    rw [hc] at h
    simp [Except.map] at h
  | ok glyphs =>
    rw [hc] at h
    simp only [Except.map, Except.ok.injEq] at h
    subst h
    simp only [List.map_cons, charGlyphs_ok_spec env _ th sl ls fm glyphs hc]
    rfl

theorem charGlyphs_ok_of_union_total (env : GeoEnv)
    (hu : ∀ ps, ∃ r, env.union ps = Except.ok r) (avg th sl ls : ℚ) :
    ∀ fm : FontMap, ∃ gs, charGlyphs env avg th sl ls fm = Except.ok gs := by
  intro fm
  induction fm with
  | nil => exact ⟨[], rfl⟩
  | cons e rest ih =>
    obtain ⟨char, data⟩ := e
    obtain ⟨gs, hgs⟩ := ih
    by_cases hempty : data.strokes.length = 0
    · exact ⟨gs, by simp [charGlyphs, hempty, hgs]⟩
    · have hpath : ∃ path, glyphPathOf env th sl
          (normalizeStrokes data.strokes char avg).strokes = Except.ok path := by
        unfold glyphPathOf
        by_cases hl : 0 < (polygonsFor env.trig th sl
            (normalizeStrokes data.strokes char avg).strokes).length
        · obtain ⟨r, hr⟩ := hu (polygonsFor env.trig th sl
            (normalizeStrokes data.strokes char avg).strokes)
          refine ⟨(r.flatten).filter fun ring => ring.length != 0, ?_⟩
          rw [if_pos hl, hr]
          rfl
        · exact ⟨[], by rw [if_neg hl]⟩
      obtain ⟨path, hpath⟩ := hpath
      refine ⟨⟨char.toString, char.toNat,
        (normalizeStrokes data.strokes char avg).advanceWidth + ls, path⟩ :: gs, ?_⟩
      simp [charGlyphs, hempty, hpath, hgs, Except.bind]

theorem generateFont_ok_of_union_total (env : GeoEnv)
    (hu : ∀ ps, ∃ r, env.union ps = Except.ok r) (fm : FontMap) (ls th sl : ℚ) :
    ∃ gs, generateFont env fm ls th sl = Except.ok gs := by
  obtain ⟨gs, hgs⟩ := charGlyphs_ok_of_union_total env hu (calculateAvgScale fm) th sl ls fm
  exact ⟨notdefGlyph :: gs, by simp [generateFont, hgs, Except.map]⟩

theorem charGlyphsV1_unicode (env : TrigEnv) (fm : FontMap) (avg ls th sl : ℚ) :
    ∀ g ∈ charGlyphsV1 env fm avg ls th sl, g.unicode ≠ 0 ∧ g.unicode ≠ 32 := by
  intro g hg
  simp only [charGlyphsV1, List.mem_filterMap] at hg
  obtain ⟨c, hc, hfc⟩ := hg
  have hcn : c.toNat ≠ 0 ∧ c.toNat ≠ 32 := by
    have hall : ∀ x ∈ CHAR_SET, x.toNat ≠ 0 ∧ x.toNat ≠ 32 := by decide
    exact hall c hc
  cases hl : fm.lookup c with
  | none =>
    rw [hl] at hfc
    simp at hfc
  | some data =>
    rw [hl] at hfc
    by_cases hempty : data.strokes.length = 0
    · simp [hempty] at hfc
    · simp only [hempty, if_false, Option.some.injEq] at hfc
      rw [← hfc]
      exact hcn

theorem countP_eq_zero_of_unicode (gs : List Glyph) (n : ℕ)
    (h : ∀ g ∈ gs, g.unicode ≠ n) :
    (gs.countP fun g => g.unicode == n) = 0 := by
  rw [List.countP_eq_zero]
  intro g hg
  simp only [beq_iff_eq]
  exact h g hg

/-- Claim C2 (amended): for every font map keyed by drawable characters, the
src/types.ts generateFont emits exactly one .notdef glyph (unicode 0) and no
space glyph at all, while the part_001 variant emits exactly one .notdef and
exactly one space glyph (unicode 32, empty outline, advance 400 plus ten
times the letter spacing) in addition to the drawn glyphs. -/
theorem claim_C2_notdef_and_space (fm : FontMap) (ls th sl : ℚ) (env : GeoEnv)
    (envt : TrigEnv)
    (hkeys : ∀ e ∈ fm, (e : Char × CharData).1.toNat ≠ 0 ∧ e.1.toNat ≠ 32) :
    (∀ gs, generateFont env fm ls th sl = Except.ok gs →
      (gs.countP fun g => g.unicode == 0) = 1 ∧ (gs.countP fun g => g.unicode == 32) = 0) ∧
    ((generateFontV1 envt fm ls th sl).countP fun g => g.unicode == 0) = 1 ∧
    ((generateFontV1 envt fm ls th sl).countP fun g => g.unicode == 32) = 1 ∧
    spaceGlyphV1 ls ∈ generateFontV1 envt fm ls th sl ∧
    (spaceGlyphV1 ls).unicode = 32 ∧ (spaceGlyphV1 ls).path = [] ∧
    (spaceGlyphV1 ls).advanceWidth = 400 + ls * 10 := by
  have hv1u := charGlyphsV1_unicode envt fm (calculateAvgScale fm) ls th sl
  refine ⟨?_, ?_, ?_, ?_, rfl, rfl, rfl⟩
  · intro gs hgs
    have hspec := generateFont_ok_spec env fm ls th sl gs hgs
    have hcount : ∀ n : ℕ, (gs.countP fun g => g.unicode == n) =
        ((gs.map fun g => (g.name, g.unicode, g.advanceWidth)).countP
          fun t => t.2.1 == n) := by
      intro n
      rw [List.countP_map]
      rfl
    have hmem : ∀ t ∈ (fm.filter fun e => e.2.strokes.length != 0).map
        (fun e => (e.1.toString, e.1.toNat,
          (normalizeStrokes e.2.strokes e.1 (calculateAvgScale fm)).advanceWidth + ls)),
        t.2.1 ≠ 0 ∧ t.2.1 ≠ 32 := by
      intro t ht
      simp only [List.mem_map] at ht
      obtain ⟨e, he, rfl⟩ := ht
      exact hkeys e (List.mem_of_mem_filter he)
    constructor
    · rw [hcount 0, hspec, List.countP_cons]
      have : ((fm.filter fun e => e.2.strokes.length != 0).map
          (fun e => (e.1.toString, e.1.toNat,
            (normalizeStrokes e.2.strokes e.1 (calculateAvgScale fm)).advanceWidth + ls))).countP
          (fun t => t.2.1 == 0) = 0 := by
        rw [List.countP_eq_zero]
        intro t ht
        simp only [beq_iff_eq]
        exact (hmem t ht).1
      rw [this]
      decide
    · rw [hcount 32, hspec, List.countP_cons]
      have : ((fm.filter fun e => e.2.strokes.length != 0).map
          (fun e => (e.1.toString, e.1.toNat,
            (normalizeStrokes e.2.strokes e.1 (calculateAvgScale fm)).advanceWidth + ls))).countP
          (fun t => t.2.1 == 32) = 0 := by
        rw [List.countP_eq_zero]
        intro t ht
        simp only [beq_iff_eq]
        exact (hmem t ht).2
      rw [this]
      decide
  · simp only [generateFontV1, List.countP_cons]
    rw [countP_eq_zero_of_unicode _ 0 fun g hg => (hv1u g hg).1]
    simp [spaceGlyphV1, notdefGlyphV1]
  · simp only [generateFontV1, List.countP_cons]
    rw [countP_eq_zero_of_unicode _ 32 fun g hg => (hv1u g hg).2]
    simp [spaceGlyphV1, notdefGlyphV1]
  · simp [generateFontV1]

/-- Counterexample to claim C2 as stated: for the empty font map the
src/types.ts generateFont produces only the .notdef glyph and no glyph with
unicode 32 at all. -/
theorem claim_C2_counterexample :
    generateFont envTriv [] 5 50 0 = Except.ok [notdefGlyph] ∧
    ([notdefGlyph].countP fun g => g.unicode == 32) = 0 := by
  exact ⟨rfl, by decide⟩

/-- Witness for the amended claim C2 at the empty font map. -/
theorem claim_C2_witness :
    ((generateFontV1 trivTrig [] 5 50 0).countP fun g => g.unicode == 0) = 1 ∧
    ((generateFontV1 trivTrig [] 5 50 0).countP fun g => g.unicode == 32) = 1 ∧
    (spaceGlyphV1 5).path = [] ∧ (spaceGlyphV1 5).advanceWidth = 400 + 5 * 10 :=
  ⟨(claim_C2_notdef_and_space [] 5 50 0 envTriv trivTrig (by simp)).2.1,
   (claim_C2_notdef_and_space [] 5 50 0 envTriv trivTrig (by simp)).2.2.1,
   (claim_C2_notdef_and_space [] 5 50 0 envTriv trivTrig (by simp)).2.2.2.2.2.1,
   (claim_C2_notdef_and_space [] 5 50 0 envTriv trivTrig (by simp)).2.2.2.2.2.2⟩

/-- Claim C4 (amended): the normalizer advance width equals the scaled
bounding-box width plus the two fixed 50-unit side bearings, and the final
glyph advance width emitted by generateFont equals the normalizer advance
plus the letter-spacing value added directly (not multiplied by 10). -/
theorem claim_C4_advance_width (strokes : List Stroke) (c : Char) (avg ls th sl : ℚ)
    (env : GeoEnv) (b : BBox)
    (hne : strokes ≠ []) (hb : bboxOf (smoothStrokes strokes) = some b) (havg : 0 ≤ avg) :
    (∃ b2, bboxOf (normalizeStrokes strokes c avg).strokes = some b2 ∧
      (normalizeStrokes strokes c avg).advanceWidth = (b2.maxX - b2.minX) + LSB + RSB) ∧
    (∀ fm : FontMap, ∀ gs, generateFont env fm ls th sl = Except.ok gs →
      gs.map (fun g => (g.name, g.advanceWidth)) =
        (".notdef", (500:ℚ)) :: (fm.filter fun e => e.2.strokes.length != 0).map
          (fun e => (e.1.toString,
            (normalizeStrokes e.2.strokes e.1 (calculateAvgScale fm)).advanceWidth + ls))) := by
  constructor
  · have hlen : ¬ strokes.length = 0 := by
      simpa [List.length_eq_zero] using hne
    have h1r : (1:ℚ) ≤ max (b.maxY - b.minY) 1 := le_max_right _ _
    have hsc : 0 ≤ (scaleTargetFor c (max (b.maxY - b.minY) 1) avg).1 :=
      scaleTargetFor_nonneg c _ avg h1r havg
    rw [normalizeStrokes_eq strokes c avg b hlen hb]
    simp only
    rw [bboxOf_mapStrokes_affine _ _ _ _ hsc hsc, hb]
    refine ⟨_, rfl, ?_⟩
    simp only [affineBox]
    ring
  · intro fm gs hgs
    have hspec := generateFont_ok_spec env fm ls th sl gs hgs
    have hproj : gs.map (fun g => (g.name, g.advanceWidth)) =
        (gs.map fun g => (g.name, g.unicode, g.advanceWidth)).map fun t => (t.1, t.2.2) := by
      simp [List.map_map, Function.comp_def]
    rw [hproj, hspec]
    simp [List.map_map, Function.comp_def]

/-- Concrete stroke of drawn width 75 and height 750 used for claim C4. -/
def sampleC4 : List Stroke := [⟨[⟨0,0⟩, ⟨75,750⟩]⟩]

/-- Font map holding sampleC4 under the character A. -/
def fmC4 : FontMap := [('A', ⟨'A', sampleC4, 300, 300⟩)]

/-- Witness for the amended claim C4 at sampleC4. -/
theorem claim_C4_witness :
    sampleC4 ≠ [] ∧ bboxOf (smoothStrokes sampleC4) = some ⟨0, 75, 0, 750⟩ ∧
    (∃ b2, bboxOf (normalizeStrokes sampleC4 'A' 1).strokes = some b2 ∧
      (normalizeStrokes sampleC4 'A' 1).advanceWidth = (b2.maxX - b2.minX) + LSB + RSB) :=
  ⟨by decide, by decide,
    (claim_C4_advance_width sampleC4 'A' 1 0 50 0 envTriv ⟨0, 75, 0, 750⟩ (by decide)
      (by decide) (by norm_num)).1⟩

/-- Counterexample to claim C4 as stated: with letterSpacing 50 the glyph
for a normalized advance width of 175 gets advance 225 = 175 + 50, not
675 = 175 + 50 times 10. -/
theorem claim_C4_counterexample :
    (normalizeStrokes sampleC4 'A' (calculateAvgScale fmC4)).advanceWidth = 175 ∧
    ((generateFont envTriv fmC4 50 50 0).toOption.map fun gs =>
      gs.map fun g => (g.name, g.advanceWidth)) = some [(".notdef", 500), ("A", 225)] ∧
    ¬((225:ℚ) = 175 + 50 * 10) := by
  have hadv : ∀ avg : ℚ, (normalizeStrokes sampleC4 'A' avg).advanceWidth = 175 := by
    intro avg
    have hb : bboxOf (smoothStrokes sampleC4) = some ⟨0, 75, 0, 750⟩ := by decide
    rw [normalizeStrokes_eq sampleC4 'A' avg ⟨0, 75, 0, 750⟩ (by decide) hb]
    simp only
    rw [scaleTargetFor_caps 'A' _ avg (by decide)]
    norm_num [CAP_HEIGHT, LSB, RSB, max_def]
  refine ⟨hadv _, ?_, by norm_num⟩
  obtain ⟨gs, hgs⟩ := generateFont_ok_of_union_total envTriv (fun ps => ⟨ps, rfl⟩) fmC4 50 50 0
  rw [hgs]
  have hspec := generateFont_ok_spec envTriv fmC4 50 50 0 gs hgs
  have hproj : gs.map (fun g => (g.name, g.advanceWidth)) =
      (gs.map fun g => (g.name, g.unicode, g.advanceWidth)).map fun t => (t.1, t.2.2) := by
    simp [List.map_map, Function.comp_def]
  have hnames : gs.map (fun g => (g.name, g.advanceWidth)) = [(".notdef", 500), ("A", 225)] := by
    rw [hproj, hspec]
    have hts : 'A'.toString = "A" := rfl
    have hlen : (sampleC4.length != 0) = true := by decide
    simp [fmC4, hlen, hadv, hts]
    norm_num
  simp only [Except.toOption, Option.map, hnames]

/-! Claim C6: degenerate and empty inputs. -/

theorem bboxOf_eq_none_iff (ss : List Stroke) :
    bboxOf ss = none ↔ (ss.map Stroke.points).flatten = [] := by
  unfold bboxOf
  cases h : (ss.map Stroke.points).flatten with
  | nil => simp
  | cons p ps => simp

/-- Claim C6 (amended): an empty stroke list, and input with no points at
all, both normalize to zero advance width with the geometry unchanged and
no error (the function is total); generateFont omits exactly the characters
whose stroke list is empty.  A nonempty input with a degenerate zero-size
bounding box is instead scaled with its raw height floored to 1 and receives
advance width 100 (LSB plus RSB), shown by the counterexample. -/
theorem claim_C6_degenerate_inputs (c : Char) (avg ls th sl : ℚ) (env : GeoEnv) :
    normalizeStrokes [] c avg = { strokes := [], advanceWidth := 0, height := EM_HEIGHT } ∧
    (∀ strokes : List Stroke, strokes ≠ [] → bboxOf (smoothStrokes strokes) = none →
      normalizeStrokes strokes c avg =
        { strokes := strokes, advanceWidth := 0, height := EM_HEIGHT }) ∧
    (∀ fm : FontMap, ∀ gs, generateFont env fm ls th sl = Except.ok gs →
      gs.map Glyph.name =
        ".notdef" :: (fm.filter fun e => e.2.strokes.length != 0).map fun e => e.1.toString) := by
  refine ⟨rfl, ?_, ?_⟩
  · intro strokes hne hbnone
    have hlen : ¬ strokes.length = 0 := by
      simpa [List.length_eq_zero] using hne
    have hflat : ((smoothStrokes strokes).map Stroke.points).flatten = [] :=
      (bboxOf_eq_none_iff _).1 hbnone
    have hall : ∀ s ∈ strokes, s.points = [] := by
      intro s hs
      have hmem : (smoothStroke s).points ∈ (smoothStrokes strokes).map Stroke.points :=
        List.mem_map_of_mem _ (List.mem_map_of_mem _ hs)
      have h1 : (smoothStroke s).points = [] := by
        rw [List.flatten_eq_nil_iff] at hflat
        exact hflat _ hmem
      have h2 := smoothStroke_length s
      rw [h1] at h2
      exact List.length_eq_zero.mp h2.symm
    have hsm : smoothStrokes strokes = strokes := by
      have hcongr : ∀ s ∈ strokes, smoothStroke s = s := fun s hs =>
        smoothStroke_of_short s (by rw [hall s hs]; decide)
      calc smoothStrokes strokes = strokes.map smoothStroke := rfl
        _ = strokes.map id := List.map_congr_left hcongr
        _ = strokes := List.map_id strokes
    simp only [normalizeStrokes, hlen, if_false, hbnone]
    rw [hsm]
  · intro fm gs hgs
    have hspec := generateFont_ok_spec env fm ls th sl gs hgs
    have hproj : gs.map Glyph.name =
        (gs.map fun g => (g.name, g.unicode, g.advanceWidth)).map fun t => t.1 := by
      simp [List.map_map, Function.comp_def]
    rw [hproj, hspec]
    simp [List.map_map, Function.comp_def]

/-- One stroke with no points, used to witness claim C6. -/
def sampleC6 : List Stroke := [⟨[]⟩]

/-- Font map with an empty stroke list for A, used to witness claim C6. -/
def fmC6 : FontMap := [('A', ⟨'A', [], 300, 300⟩)]

/-- Witness for the amended claim C6. -/
theorem claim_C6_witness :
    sampleC6 ≠ [] ∧ bboxOf (smoothStrokes sampleC6) = none ∧
    normalizeStrokes sampleC6 'A' 1 =
      { strokes := sampleC6, advanceWidth := 0, height := EM_HEIGHT } ∧
    generateFont envTriv fmC6 0 50 0 = Except.ok [notdefGlyph] ∧
    [notdefGlyph].map Glyph.name = [".notdef"] :=
  ⟨by decide, by decide,
    (claim_C6_degenerate_inputs 'A' 1 0 50 0 envTriv).2.1 sampleC6 (by decide) (by decide),
    rfl,
    by simpa [fmC6] using
      (claim_C6_degenerate_inputs 'A' 1 0 50 0 envTriv).2.2 fmC6 [notdefGlyph] rfl⟩

/-- Single-point input with a degenerate zero-size bounding box. -/
def dotInput : List Stroke := [⟨[⟨5,5⟩]⟩]

/-- Font map holding dotInput under the character A. -/
def fmDot : FontMap := [('A', ⟨'A', dotInput, 300, 300⟩)]

/-- Counterexample to claim C6 as stated: a single tap has a degenerate
(zero-size) bounding box, yet normalizes to advance width 100 with moved
geometry, and its glyph is emitted by generateFont, not omitted. -/
theorem claim_C6_counterexample :
    bboxOf (smoothStrokes dotInput) = some ⟨5, 5, 5, 5⟩ ∧
    (5:ℚ) - 5 = 0 ∧
    normalizeStrokes dotInput 'A' 1 =
      { strokes := [⟨[⟨50, 50⟩]⟩], advanceWidth := 100, height := EM_HEIGHT } ∧
    ¬((100:ℚ) = 0) ∧
    ¬(([⟨[⟨50, 50⟩]⟩] : List Stroke) = dotInput) ∧
    ((generateFont envTriv fmDot 0 50 0).toOption.map fun gs => gs.map Glyph.name) =
      some [".notdef", "A"] := by
  have hb : bboxOf (smoothStrokes dotInput) = some ⟨5, 5, 5, 5⟩ := by decide
  have hnorm := normalizeStrokes_eq dotInput 'A' 1 ⟨5, 5, 5, 5⟩ (by decide) hb
  rw [scaleTargetFor_caps 'A' _ 1 (by decide)] at hnorm
  have hstr : normalizeStrokes dotInput 'A' 1 =
      { strokes := [⟨[⟨50, 50⟩]⟩], advanceWidth := 100, height := EM_HEIGHT } := by
    rw [hnorm]
    norm_num [mapStrokes, affinePt, dotInput, CAP_HEIGHT, BASELINE, LSB, RSB, max_def,
      smoothStrokes, smoothStroke]
  refine ⟨hb, by norm_num, hstr, by norm_num, by decide, ?_⟩
  obtain ⟨gs, hgs⟩ := generateFont_ok_of_union_total envTriv (fun ps => ⟨ps, rfl⟩) fmDot 0 50 0
  rw [hgs]
  have hspec := generateFont_ok_spec envTriv fmDot 0 50 0 gs hgs
  have hnames : gs.map Glyph.name = [".notdef", "A"] := by
    have hproj : gs.map Glyph.name =
        (gs.map fun g => (g.name, g.unicode, g.advanceWidth)).map fun t => t.1 := by
      simp [List.map_map, Function.comp_def]
    rw [hproj, hspec]
    have hts : 'A'.toString = "A" := rfl
    simp [fmDot, dotInput, List.filter, hts]
  simp only [Except.toOption, Option.map, hnames]

/-! Claims C3 and C8: behaviour of the assembler on a concrete vertical
stroke, and the family variants. -/

/-- Normalized form of the sample vertical stroke: endpoints (50,50) and
(50,800) in em space. -/
def strokeC8 : Stroke := ⟨[⟨50, 50⟩, ⟨50, 800⟩]⟩

theorem normalizeVert (c : Char) (avg : ℚ) (hc : CAPS_CHARS.contains c = true) :
    normalizeStrokes [⟨[⟨0,0⟩, ⟨0,750⟩]⟩] c avg =
      { strokes := [strokeC8], advanceWidth := 100, height := EM_HEIGHT } := by
  have hb : bboxOf (smoothStrokes [⟨[⟨0,0⟩, ⟨0,750⟩]⟩]) = some ⟨0, 0, 0, 750⟩ := by decide
  rw [normalizeStrokes_eq [⟨[⟨0,0⟩, ⟨0,750⟩]⟩] c avg ⟨0, 0, 0, 750⟩ (by decide) hb]
  rw [scaleTargetFor_caps c _ avg hc]
  norm_num [mapStrokes, affinePt, strokeC8, CAP_HEIGHT, BASELINE, LSB, RSB, max_def,
    smoothStrokes, smoothStroke]

theorem strokeC8_ring (envt : TrigEnv) (th sl : ℚ) :
    getStrokeOutlinePoints envt strokeC8 1 800 th sl 0 0 =
      strokeRing envt 1 800 th sl 0 0 strokeC8.points := by
  have hcond : ¬(strokeC8.points.length = 1 ∨ (strokeC8.points.length = 2 ∧
      distSq (strokeC8.points.getD 0 ⟨0,0⟩) (strokeC8.points.getD 1 ⟨0,0⟩) < 4)) := by
    norm_num [strokeC8, distSq]
  simp only [getStrokeOutlinePoints]
  rw [if_neg (by norm_num [strokeC8]), if_neg hcond]

theorem polygonsFor_strokeC8 (envt : TrigEnv) (th sl : ℚ) :
    polygonsFor envt th sl [strokeC8] =
      [[strokeRing envt 1 800 th sl 0 0 strokeC8.points]] := by
  have hr := strokeC8_ring envt th sl
  have hl2 : (strokeRing envt 1 800 th sl 0 0 strokeC8.points).length = 18 := by
    rw [strokeRing_length envt 1 800 th sl 0 0 strokeC8.points (by norm_num [strokeC8])]
    norm_num [strokeC8]
  simp only [polygonsFor, List.map_cons, List.map_nil, List.filter_cons, List.filter_nil]
  rw [hr]
  simp [hl2]

/-- Drawing data for the characters A and B, a single vertical stroke. -/
def dataA : CharData := ⟨'A', [⟨[⟨0,0⟩, ⟨0,750⟩]⟩], 300, 300⟩

/-- Drawing data for the character B, same vertical stroke. -/
def dataB : CharData := ⟨'B', [⟨[⟨0,0⟩, ⟨0,750⟩]⟩], 300, 300⟩

/-- Two-character font map used for the union-failure scenario. -/
def fmC3 : FontMap := [('A', dataA), ('B', dataB)]

/-- Claim C3 evaluation: when the union step throws on the first glyph, the
src/types.ts generateFont has no handler, so the whole font generation
aborts with the error, although the very same font map produces a complete
font when the union succeeds; the remaining glyphs are lost. -/
theorem claim_C3_union_failure_aborts_font :
    generateFont envFail fmC3 0 50 0 = Except.error "union failed" ∧
    ((generateFont envTriv fmC3 0 50 0).toOption.map fun gs => gs.map Glyph.name) =
      some [".notdef", "A", "B"] := by
  constructor
  · have hpoly := polygonsFor_strokeC8 trivTrig 50 0
    have hpath : glyphPathOf envFail 50 0 [strokeC8] = Except.error "union failed" := by
      unfold glyphPathOf
      have htr : envFail.trig = trivTrig := rfl
      rw [htr, hpoly, if_pos (by norm_num)]
      rfl
    have hchar : ∀ avg : ℚ, charGlyphs envFail avg 50 0 0 fmC3 =
        Except.error "union failed" := by
      intro avg
      have hA := normalizeVert 'A' avg (by decide)
      have hne : ¬ dataA.strokes.length = 0 := by decide
      simp only [fmC3, charGlyphs, hne, if_false]
      rw [show dataA.strokes = [⟨[⟨0,0⟩, ⟨0,750⟩]⟩] from rfl, hA]
      simp only
      rw [hpath]
      rfl
    simp only [generateFont]
    rw [hchar]
    rfl
  · obtain ⟨gs, hgs⟩ := generateFont_ok_of_union_total envTriv (fun ps => ⟨ps, rfl⟩) fmC3 0 50 0
    rw [hgs]
    have hspec := generateFont_ok_spec envTriv fmC3 0 50 0 gs hgs
    have hnames : gs.map Glyph.name = [".notdef", "A", "B"] := by
      have hproj : gs.map Glyph.name =
          (gs.map fun g => (g.name, g.unicode, g.advanceWidth)).map fun t => t.1 := by
        simp [List.map_map, Function.comp_def]
      rw [hproj, hspec]
      have htsA : 'A'.toString = "A" := rfl
      have htsB : 'B'.toString = "B" := rfl
      simp [fmC3, dataA, dataB, List.filter, htsA, htsB]
    simp only [Except.toOption, Option.map, hnames]

/-- Claim C8: for a fixed font map the per-glyph names and advance widths
the Regular, Bold, and Italic passes emit are identical (advance width does
not depend on thickness or slant), while the outline rings fed to the union
differ between Regular and Bold and between Regular and Italic whenever the
trigonometric oracle is on the unit circle. -/
theorem claim_C8_family_invariants :
    (∀ (fm : FontMap) (ls : ℚ) (env : GeoEnv) (gsR gsB gsI : List Glyph),
      (generateFontFamily env fm ls).1 = Except.ok gsR →
      (generateFontFamily env fm ls).2.1 = Except.ok gsB →
      (generateFontFamily env fm ls).2.2 = Except.ok gsI →
      gsB.map (fun g => (g.name, g.advanceWidth)) =
        gsR.map (fun g => (g.name, g.advanceWidth)) ∧
      gsI.map (fun g => (g.name, g.advanceWidth)) =
        gsR.map (fun g => (g.name, g.advanceWidth))) ∧
    (∀ envt : TrigEnv, envt.onCircle →
      polygonsFor envt 90 0 [strokeC8] ≠ polygonsFor envt 50 0 [strokeC8] ∧
      polygonsFor envt 50 (1/4) [strokeC8] ≠ polygonsFor envt 50 0 [strokeC8]) := by
  constructor
  · intro fm ls env gsR gsB gsI hR hB hI
    have hlist : ∀ (th sl : ℚ) (gs : List Glyph), generateFont env fm ls th sl = Except.ok gs →
        gs.map (fun g => (g.name, g.advanceWidth)) =
          (".notdef", (500:ℚ)) :: (fm.filter fun e => e.2.strokes.length != 0).map
            (fun e => (e.1.toString,
              (normalizeStrokes e.2.strokes e.1 (calculateAvgScale fm)).advanceWidth + ls)) := by
      intro th sl gs hgs
      have hspec := generateFont_ok_spec env fm ls th sl gs hgs
      have hproj : gs.map (fun g => (g.name, g.advanceWidth)) =
          (gs.map fun g => (g.name, g.unicode, g.advanceWidth)).map fun t => (t.1, t.2.2) := by
        simp [List.map_map, Function.comp_def]
      rw [hproj, hspec]
      simp [List.map_map, Function.comp_def]
    exact ⟨(hlist 90 0 gsB hB).trans (hlist 50 0 gsR hR).symm,
      (hlist 50 (1/4) gsI hI).trans (hlist 50 0 gsR hR).symm⟩
  · intro envt honc
    constructor
    · intro hEq
      rw [polygonsFor_strokeC8, polygonsFor_strokeC8] at hEq
      simp only [List.cons.injEq, and_true] at hEq
      have hhead := congrArg (fun l : Ring => l.getD 0 ((0:ℚ), (0:ℚ))) hEq
      simp only [strokeRing, buildSides, strokeC8, List.cons_append, List.getD_cons_zero,
        List.append_assoc] at hhead
      simp only [transformPt, Prod.mk.injEq] at hhead
      obtain ⟨hx, hy⟩ := hhead
      set c := envt.cos (getAngle envt ⟨50, 50⟩ ⟨50, 800⟩ - envt.pi / 2) with hc
      set s := envt.sin (getAngle envt ⟨50, 50⟩ ⟨50, 800⟩ - envt.pi / 2) with hs
      have h1 := honc (getAngle envt ⟨50, 50⟩ ⟨50, 800⟩ - envt.pi / 2)
      rw [← hc, ← hs] at h1
      ring_nf at hx hy
      have hc0 : c = 0 := by linarith
      have hs0 : s = 0 := by linarith
      rw [hc0, hs0] at h1
      norm_num at h1
    · intro hEq
      rw [polygonsFor_strokeC8, polygonsFor_strokeC8] at hEq
      simp only [List.cons.injEq, and_true] at hEq
      have hhead := congrArg (fun l : Ring => l.getD 0 ((0:ℚ), (0:ℚ))) hEq
      simp only [strokeRing, buildSides, strokeC8, List.cons_append, List.getD_cons_zero,
        List.append_assoc] at hhead
      simp only [transformPt, Prod.mk.injEq] at hhead
      obtain ⟨hx, hy⟩ := hhead
      set c := envt.cos (getAngle envt ⟨50, 50⟩ ⟨50, 800⟩ - envt.pi / 2) with hc
      set s := envt.sin (getAngle envt ⟨50, 50⟩ ⟨50, 800⟩ - envt.pi / 2) with hs
      have h1 := honc (getAngle envt ⟨50, 50⟩ ⟨50, 800⟩ - envt.pi / 2)
      rw [← hc, ← hs] at h1
      ring_nf at hx hy
      have hs30 : s = 30 := by linarith
      rw [hs30] at h1
      nlinarith [sq_nonneg c]

/-- Witness for claim C8 with the concrete unit-circle oracle. -/
theorem claim_C8_witness :
    TrigEnv.onCircle trivTrig ∧
    polygonsFor trivTrig 90 0 [strokeC8] ≠ polygonsFor trivTrig 50 0 [strokeC8] ∧
    polygonsFor trivTrig 50 (1/4) [strokeC8] ≠ polygonsFor trivTrig 50 0 [strokeC8] ∧
    (generateFontFamily envTriv [] 0).1 = Except.ok [notdefGlyph] ∧
    [notdefGlyph].map (fun g => (g.name, g.advanceWidth)) =
      [notdefGlyph].map (fun g => (g.name, g.advanceWidth)) := by
  have honc : TrigEnv.onCircle trivTrig := fun θ => by norm_num [trivTrig]
  exact ⟨honc, (claim_C8_family_invariants.2 trivTrig honc).1,
    (claim_C8_family_invariants.2 trivTrig honc).2,
    rfl,
    (claim_C8_family_invariants.1 [] 0 envTriv [notdefGlyph] [notdefGlyph] [notdefGlyph]
      rfl rfl rfl).1⟩

end XHeight
